import Mathlib

/-!
Shallow embedding of the upload handler of `src/pages/api/upload.ts`
(the single `handler` function plus its helpers), modelling the chunked
upload pipeline (chunk store, reassembly), the whole-upload ingestion
loop, naming, compression selection and the per-user rate limiter.

Conventions of the embedding:
* Byte buffers are `List Nat` (one entry per byte).
* Randomness (`randomChars`, `randomUUID`, `dayjs().format`, `sharp`
  recompression, invisible-alias generation, `Math.random` domain pick)
  lives outside the handler; it is threaded in as an `Oracles` record of
  pure functions, so the handler itself stays deterministic.
* `Date.now()` is a single `now : Nat` parameter (milliseconds).
* Database writes (`prisma.image.create`, `createInvisImage`) and blob
  writes (`datasource.save`) are recorded as an explicit `Event` trace.
* The temp-dir chunk files `zipline_partial_<id>_<start>_<end>` are
  modelled as a list of entries keyed by the components `(identifier,
  start, stop)` that the code encodes into, and parses back out of, the
  file name.  (The JS code filters directory entries by the string
  prefix `zipline_partial_<id>`, which for exotic identifiers - one
  identifier extending another, or identifiers containing `_` - can
  also match foreign chunks; the claims below use fixed identifiers for
  which the two coincide.)
* `Number(...)`-parsed headers arrive already parsed (`Option Int`);
  the `isNaN` early rejections concern unparseable header strings and
  are outside the parsed model.
-/

namespace Zipline

/-- Relevant fields of `zconfig` (`lib/config`). -/
structure Config where
  disabled_extensions : List String
  length : Nat
  format_date : String
  route : String
  https : Bool
  user_limit : Nat
  admin_limit : Nat
  ratelimit_user : Nat
  ratelimit_admin : Nat
  deriving Repr, DecidableEq

/-- The effectful collaborators the handler calls for fresh values:
`randomChars` (lib/util), `dayjs().format`, `randomUUID`, `sharp(..).jpeg`
recompression, `createInvisImage` aliases (indexed by position in the
batch), `hashPassword` and the `Math.random` domain index. -/
structure Oracles where
  randomChars : Nat → String
  dateFormat : String → String
  uuid : String
  compressJpeg : Int → List Nat → List Nat
  invisChars : Nat → String
  hashPassword : String → String
  domainIdx : Nat

/-- The `ImageFormat` Prisma enum. -/
inductive ImageFormat where
  | RANDOM | DATE | UUID | NAME
  deriving Repr, DecidableEq

/-- `String.prototype.split(sep)` over the character list: split at every
separator, keeping empty groups (`''.split('.')` is `['']`). -/
def splitOnChar (sep : Char) : List Char → List (List Char)
  | [] => [[]]
  | c :: cs =>
    let r := splitOnChar sep cs
    if c = sep then [] :: r
    else
      match r with
      | [] => [[c]]
      | g :: gs => (c :: g) :: gs

/-- JS `s.split(sep)` (single-character separator). -/
def jsSplit (s : String) (sep : Char) : List String :=
  (splitOnChar sep s.data).map String.mk

/-- JS `toUpperCase` on the selector strings involved (ASCII). -/
def jsToUpper (s : String) : String :=
  String.mk (s.data.map Char.toUpper)

/-- Lines 46-47: `rawFormat = ((headers.format || '') as string).toUpperCase()
|| 'RANDOM'; format = Object.keys(ImageFormat).includes(rawFormat) &&
ImageFormat[rawFormat]`.  `none` models the JS value `false` that results
when the uppercased selector is not a member of the enum. -/
def parseFormat (h : Option String) : Option ImageFormat :=
  let up := jsToUpper (h.getD "")
  let raw := if up = "" then "RANDOM" else up
  if raw = "RANDOM" then some .RANDOM
  else if raw = "DATE" then some .DATE
  else if raw = "UUID" then some .UUID
  else if raw = "NAME" then some .NAME
  else none

/-- The `switch (format)` naming blocks (lines 104-120 and 190-206):
`RANDOM` and the `default` arm (reached when `format` is the JS value
`false`) both draw `randomChars(zconfig.uploader.length)`; `NAME` takes
`originalname.split('.')[0]`. -/
def resolveFileName (o : Oracles) (cfg : Config) (format : Option ImageFormat)
    (originalname : String) : String :=
  match format with
  | some .RANDOM => o.randomChars cfg.length
  | some .DATE => o.dateFormat cfg.format_date
  | some .UUID => o.uuid
  | some .NAME => ((jsSplit originalname '.').headD "")
  | none => o.randomChars cfg.length

/-- `filename.split('.').pop()`: the segment after the final dot (the whole
name when there is no dot). -/
def fileExt (name : String) : String :=
  (jsSplit name '.').getLastD ""

/-- JS `String.prototype.startsWith`, byte-for-byte prefix test. -/
def jsStartsWith (s p : String) : Bool :=
  p.data.isPrefixOf s.data

/-- JS truthiness of the parsed `image-compression-percent` header at lines
127 / 213: `null` and `0` are falsy, every other number is truthy. -/
def percentTruthy : Option Int → Bool
  | none => false
  | some n => n != 0

/-- Line 127 / line 213: `imageCompressionPercent && mimetype.startsWith('image/')`. -/
def compressionUsed (percent : Option Int) (mimetype : String) : Bool :=
  percentTruthy percent && jsStartsWith mimetype "image/"

/-! ## Chunk reassembly (lines 77-97) -/

/-- One stored chunk as the reassembly loop sees it after parsing the temp
file name: declared `start`/`stop` offsets plus the stored bytes. -/
structure Chunk where
  start : Nat
  stop : Nat
  bytes : List Nat
  deriving Repr, DecidableEq

/-- The in-range copy performed by `chunks.set(buffer, start)` on a
`Uint8Array`, modelled over lists: overwrite `buf[start + i]` with
`bs[i]`.  A JS `set` whose range exceeds the target throws a
`RangeError` instead; that check is modelled separately in
`combineLoop`, which aborts before ever calling `writeAt` out of range,
so `writeAt` itself is only applied where the two agree. -/
def writeAt : List Nat → Nat → List Nat → List Nat
  | buf, _, [] => buf
  | [], _, _ :: _ => []
  | _ :: buf, 0, x :: bs => x :: writeAt buf 0 bs
  | b :: buf, off + 1, bs => b :: writeAt buf off bs

/-- Lines 88-97 in the in-range regime: allocate `new Uint8Array(total)`
(zero-initialised) and copy each chunk's bytes to its declared start
offset, in enumeration order.  This fold is the reassembly loop's effect
when no chunk overruns the buffer (so no `set` can throw);
`combineLoop` below is the full loop including the `RangeError` abort,
and `combineLoop_ok_of_inRange` connects the two. -/
def combineChunks (total : Nat) (cs : List Chunk) : List Nat :=
  cs.foldl (fun buf c => writeAt buf c.start c.bytes) (List.replicate total 0)

/-- Lines 90-97, the reassembly loop proper: each iteration reads and
`unlink`s one chunk file, then calls `chunks.set(buffer, start)`, which
throws a `RangeError` when `start + bytes.length` exceeds the buffer
length.  `ok` returns the filled buffer; `error j` aborts the request at
the first offending chunk with `j` chunk files already unlinked (the
offending chunk's own file included, since `unlink` precedes `set`).
The counter argument starts at 0. -/
def combineLoop : List Chunk → List Nat → Nat → Except Nat (List Nat)
  | [], buf, _ => .ok buf
  | c :: cs, buf, k =>
    if buf.length < c.start + c.bytes.length then .error (k + 1)
    else combineLoop cs (writeAt buf c.start c.bytes) (k + 1)

/-- Chunk `c` supplies the byte at absolute offset `i`. -/
def covers (c : Chunk) (i : Nat) : Prop :=
  c.start ≤ i ∧ i < c.start + c.bytes.length

instance (c : Chunk) (i : Nat) : Decidable (covers c i) := by
  unfold covers; infer_instance

/-- The byte ranges actually written by two chunks do not intersect. -/
def chunksDisjoint (a b : Chunk) : Prop :=
  a.start + a.bytes.length ≤ b.start ∨ b.start + b.bytes.length ≤ a.start

instance (a b : Chunk) : Decidable (chunksDisjoint a b) := by
  unfold chunksDisjoint; infer_instance

theorem length_writeAt (buf : List Nat) (off : Nat) (bs : List Nat) :
    (writeAt buf off bs).length = buf.length := by
  induction buf generalizing off bs with
  | nil => cases bs <;> simp [writeAt]
  | cons b buf ih =>
    cases bs with
    | nil => simp [writeAt]
    | cons x bs =>
      cases off with
      | zero => simpa [writeAt] using ih 0 bs
      | succ o => simpa [writeAt] using ih o (x :: bs)

theorem getD_writeAt (buf bs : List Nat) (off i : Nat) (h : i < buf.length) :
    (writeAt buf off bs).getD i 0 =
      if off ≤ i ∧ i - off < bs.length then bs.getD (i - off) 0
      else buf.getD i 0 := by
  induction buf generalizing off bs i with
  | nil => simp at h
  | cons b buf ih =>
    cases bs with
    | nil =>
      simp [writeAt]
    | cons x bs =>
      cases off with
      | zero =>
        cases i with
        | zero => simp [writeAt]
        | succ j =>
          have hj : j < buf.length := by simpa using h
          simpa [writeAt, Nat.succ_lt_succ_iff] using ih bs 0 j hj
      | succ o =>
        cases i with
        | zero =>
          simp [writeAt]
        | succ j =>
          have hj : j < buf.length := by simpa using h
          have := ih (x :: bs) o j hj
          simpa [writeAt, Nat.succ_le_succ_iff, Nat.succ_sub_succ] using this

theorem length_combineChunks (total : Nat) (cs : List Chunk) :
    (combineChunks total cs).length = total := by
  suffices h : ∀ (cs : List Chunk) (buf : List Nat),
      (cs.foldl (fun buf c => writeAt buf c.start c.bytes) buf).length = buf.length by
    simpa [combineChunks] using h cs (List.replicate total 0)
  intro cs
  induction cs with
  | nil => intro buf; rfl
  | cons c cs ih =>
    intro buf
    simpa [List.foldl_cons, length_writeAt] using ih (writeAt buf c.start c.bytes)

/-- An offset no chunk covers is never written: the fold leaves the
initial buffer's byte there. -/
theorem foldl_getD_of_not_covered (cs : List Chunk) (buf : List Nat) (i : Nat)
    (hi : i < buf.length) (h : ∀ c ∈ cs, ¬ covers c i) :
    ((cs.foldl (fun buf c => writeAt buf c.start c.bytes) buf).getD i 0) = buf.getD i 0 := by
  induction cs generalizing buf with
  | nil => rfl
  | cons c cs ih =>
    have hc : ¬ covers c i := h c (by simp)
    have hrest : ∀ c' ∈ cs, ¬ covers c' i := fun c' hc' => h c' (by simp [hc'])
    have hlen : i < (writeAt buf c.start c.bytes).length := by
      simpa [length_writeAt] using hi
    have step : (writeAt buf c.start c.bytes).getD i 0 = buf.getD i 0 := by
      rw [getD_writeAt buf c.bytes c.start i hi]
      have : ¬ (c.start ≤ i ∧ i - c.start < c.bytes.length) := by
        intro ⟨h1, h2⟩
        exact hc ⟨h1, by omega⟩
      simp [this]
    calc ((c :: cs).foldl (fun buf c => writeAt buf c.start c.bytes) buf).getD i 0
        = (cs.foldl (fun buf c => writeAt buf c.start c.bytes)
            (writeAt buf c.start c.bytes)).getD i 0 := rfl
      _ = (writeAt buf c.start c.bytes).getD i 0 := ih _ hlen hrest
      _ = buf.getD i 0 := step

/-- With pairwise disjoint chunks, the chunk covering offset `i`
determines the final byte there. -/
theorem foldl_getD_of_covered (cs : List Chunk) (buf : List Nat) (i : Nat) (c : Chunk)
    (hmem : c ∈ cs) (hcov : covers c i) (hdisj : cs.Pairwise chunksDisjoint)
    (hi : i < buf.length) :
    ((cs.foldl (fun buf c => writeAt buf c.start c.bytes) buf).getD i 0) =
      c.bytes.getD (i - c.start) 0 := by
  induction cs generalizing buf with
  | nil => cases hmem
  | cons c' cs ih =>
    have hlen : i < (writeAt buf c'.start c'.bytes).length := by
      simpa [length_writeAt] using hi
    obtain ⟨hcov1, hcov2⟩ := hcov
    rcases List.mem_cons.mp hmem with rfl | hmem'
    · have hrest : ∀ d ∈ cs, ¬ covers d i := by
        intro d hd hcovd
        obtain ⟨hd1, hd2⟩ := hcovd
        rcases (List.pairwise_cons.mp hdisj).1 d hd with h1 | h1 <;> omega
      have := foldl_getD_of_not_covered cs (writeAt buf c.start c.bytes) i hlen hrest
      rw [List.foldl_cons, this, getD_writeAt buf c.bytes c.start i hi]
      have hcond : c.start ≤ i ∧ i - c.start < c.bytes.length := ⟨hcov1, by omega⟩
      simp [hcond]
    · rw [List.foldl_cons]
      exact ih _ hmem' (List.pairwise_cons.mp hdisj).2 hlen

/-- Disjointness of two chunks' declared `[start, stop)` ranges. -/
def rangesDisjoint (a b : Chunk) : Prop :=
  a.stop ≤ b.start ∨ b.stop ≤ a.start

instance (a b : Chunk) : Decidable (rangesDisjoint a b) := by
  unfold rangesDisjoint; infer_instance

/-- C1: for every declared total size and every set of chunks whose declared
`[start, stop)` ranges exactly cover `[0, total)` with no gaps and no
overlaps, and whose bytes are the corresponding slices of the original
source, reassembly produces a buffer of length `total` that is byte-for-byte
the original source - for every enumeration order of the chunks (the chunk
list is arbitrary, so every order is covered). -/
theorem reassembly_roundTrip (total : Nat) (source : List Nat) (cs : List Chunk)
    (hsrc : source.length = total)
    (hslice : ∀ c ∈ cs, c.bytes = (source.drop c.start).take (c.stop - c.start))
    (hwf : ∀ c ∈ cs, c.start ≤ c.stop)
    (hsub : ∀ c ∈ cs, c.stop ≤ total)
    (hcover : ∀ i, i < total → ∃ c ∈ cs, c.start ≤ i ∧ i < c.stop)
    (hdisj : cs.Pairwise rangesDisjoint) :
    (combineChunks total cs).length = total ∧ combineChunks total cs = source := by
  have blen : ∀ c ∈ cs, c.bytes.length = c.stop - c.start := by
    intro c hc
    have h1 := hwf c hc
    have h2 := hsub c hc
    rw [hslice c hc]
    simp only [List.length_take, List.length_drop]
    omega
  have hdisj' : cs.Pairwise chunksDisjoint := by
    refine List.Pairwise.imp_of_mem ?_ hdisj
    intro a b ha hb hr
    have la := blen a ha
    have lb := blen b hb
    have wa := hwf a ha
    have wb := hwf b hb
    rcases hr with h | h
    · exact Or.inl (by omega)
    · exact Or.inr (by omega)
  have hclen := length_combineChunks total cs
  refine ⟨hclen, List.ext_getElem? ?_⟩
  intro i
  by_cases hi : i < total
  · obtain ⟨c, hc, h1, h2⟩ := hcover i hi
    have hbl := blen c hc
    have hcov : covers c i := ⟨h1, by omega⟩
    have hv := foldl_getD_of_covered cs (List.replicate total 0) i c hc hcov hdisj'
      (by simpa using hi)
    have hbytes_i : c.bytes.getD (i - c.start) 0 = source.getD i 0 := by
      rw [hslice c hc]
      rw [List.getD_eq_getElem?_getD, List.getD_eq_getElem?_getD]
      rw [List.getElem?_take]
      have hlt : i - c.start < c.stop - c.start := by omega
      simp only [hlt, if_true, List.getElem?_drop]
      have : c.start + (i - c.start) = i := by omega
      rw [this]
    have hvi : (combineChunks total cs).getD i 0 = source.getD i 0 := by
      rw [combineChunks, hv, hbytes_i]
    rw [List.getElem?_eq_getElem (by omega : i < (combineChunks total cs).length),
      List.getElem?_eq_getElem (by omega : i < source.length)]
    have e1 : (combineChunks total cs).getD i 0 =
        (combineChunks total cs)[i] :=
      List.getD_eq_getElem _ 0 (by omega)
    have e2 : source.getD i 0 = source[i] := List.getD_eq_getElem _ 0 (by omega)
    rw [← e1, ← e2, hvi]
  · rw [List.getElem?_eq_none (by omega : (combineChunks total cs).length ≤ i),
      List.getElem?_eq_none (by omega : source.length ≤ i)]

/-- Witness for `reassembly_roundTrip`: two chunks of a 4-byte source,
submitted in reverse order, reassemble to the source. -/
theorem reassembly_roundTrip_witness :
    (combineChunks 4 [Chunk.mk 2 4 [30, 40], Chunk.mk 0 2 [10, 20]]).length = 4 ∧
      combineChunks 4 [Chunk.mk 2 4 [30, 40], Chunk.mk 0 2 [10, 20]] = [10, 20, 30, 40] :=
  reassembly_roundTrip 4 [10, 20, 30, 40] [Chunk.mk 2 4 [30, 40], Chunk.mk 0 2 [10, 20]]
    (by decide) (by decide) (by decide) (by decide) (by decide) (by decide)

/-! ## The chunk store (temp-dir files `zipline_partial_<id>_<start>_<end>`) -/

/-- One temp file holding one chunk, keyed by the components the code
encodes into the file name. -/
structure ChunkEntry where
  identifier : String
  start : Nat
  stop : Nat
  bytes : List Nat
  deriving Repr, DecidableEq

/-- The temp directory's chunk files, in directory-enumeration order. -/
abbrev ChunkFS := List ChunkEntry

/-- Same temp-file name: same identifier, start and end. -/
def sameKey (e : ChunkEntry) (id : String) (start stop : Nat) : Bool :=
  e.identifier == id && e.start == start && e.stop == stop

/-- Line 75: `writeFile(tempFile, req.files[0].buffer)` - wholly replaces
the file of that name if it exists (file names in a directory are unique,
so replacing the first match is the overwrite), else creates it. -/
def fsWrite : ChunkFS → String → Nat → Nat → List Nat → ChunkFS
  | [], id, start, stop, bytes => [⟨id, start, stop, bytes⟩]
  | e :: fs, id, start, stop, bytes =>
    if sameKey e id start stop then { e with bytes := bytes } :: fs
    else e :: fsWrite fs id start stop bytes

/-- The bytes currently stored under one chunk key, if any. -/
def fsLookup (fs : ChunkFS) (id : String) (start stop : Nat) : Option (List Nat) :=
  (fs.find? (fun e => sameKey e id start stop)).map ChunkEntry.bytes

/-- Lines 78-85: enumerate the stored chunks of an identifier and parse
`start`/`end` back out of each file name. -/
def listChunks (fs : ChunkFS) (id : String) : List Chunk :=
  (fs.filter (fun e => e.identifier == id)).map (fun e => ⟨e.start, e.stop, e.bytes⟩)

/-- Line 94: every enumerated chunk file is `unlink`ed during the
reassembly loop; net effect when the loop completes, all chunks of the
identifier are gone. -/
def fsRemove (fs : ChunkFS) (id : String) : ChunkFS :=
  fs.filter (fun e => ¬ e.identifier == id)

/-- The store after the reassembly loop aborts having `unlink`ed only its
first `k` enumerated chunks of the identifier: those entries are removed
in enumeration order, later ones (and other identifiers) survive. -/
def fsRemoveFirstMatches : ChunkFS → String → Nat → ChunkFS
  | fs, _, 0 => fs
  | [], _, _ + 1 => []
  | e :: fs, id, k + 1 =>
    if e.identifier == id then fsRemoveFirstMatches fs id k
    else e :: fsRemoveFirstMatches fs id (k + 1)

/-! ## Requests, records and the handler -/

/-- One entry of `req.files` as multer delivers it. -/
structure UFile where
  originalname : String
  mimetype : String
  size : Nat
  buffer : List Nat
  deriving Repr, DecidableEq

/-- The parsed `content-range` header (`bytes start-end/total`, lines
63-67) together with the `x-zipline-partial-*` side-channel headers. -/
structure ContentRange where
  start : Nat
  stop : Nat
  total : Nat
  filename : String
  mimetype : String
  identifier : String
  lastchunk : Bool
  deriving Repr, DecidableEq

/-- The header surface of one upload request, after parsing.  `percent`
and `maxViews` are the `Number(...)`-parsed headers (`none` = header
absent); `expiresAt` is the already-validated expiry timestamp. -/
structure Req where
  files : List UFile
  range : Option ContentRange
  format : Option String
  percent : Option Int
  maxViews : Option Int
  password : Option String
  embed : Bool
  zws : Bool
  uploadtext : Bool
  expiresAt : Option Nat
  host : String
  deriving Repr, DecidableEq

/-- The authenticated user row the handler reads and writes. -/
structure User where
  id : Nat
  administrator : Bool
  ratelimit : Option Nat
  domains : List String
  deriving Repr, DecidableEq

/-- The fields of the created `prisma.image` File Record. -/
structure Image where
  file : String
  mimetype : String
  userId : Nat
  embed : Bool
  format : Option ImageFormat
  password : Option String
  expiresAt : Option Nat
  maxViews : Option Int
  deriving Repr, DecidableEq

/-- Persistent side effects of the handler, in program order:
`prisma.image.create`, `createInvisImage`, `datasource.save`. -/
inductive Event where
  | createRecord (img : Image)
  | createInvis (a : String)
  | saveBlob (key : String) (bytes : List Nat)
  deriving Repr, DecidableEq

/-- The response value.  `fatal` is an exception the handler does not
catch (here, the `RangeError` from `Uint8Array.set` at line 96): the
request dies without a structured response, no record created and no blob
written. -/
inductive HandlerResult where
  | filesJson (files : List String) (expiresAt : Option Nat)
  | chunkAck
  | errorResp (msg : String)
  | ratelimited (remaining : Int)
  | fatal
  deriving Repr, DecidableEq

/-- `zconfig.uploader.route === '/' ? '' : zconfig.uploader.route`. -/
def routePart (cfg : Config) : String :=
  if cfg.route = "/" then "" else cfg.route

/-- `(zconfig.core.https ? 'https' : 'http') + '://' + req.headers.host`. -/
def hostUrl (cfg : Config) (host : String) : String :=
  (if cfg.https then "https" else "http") ++ "://" ++ host

/-- Lines 52-54: range validation of the parsed compression percent (the
`isNaN` branch concerns unparseable strings, outside the parsed model).
JS `null < 0` and `null > 100` are both false, so an absent header
passes. -/
def percentInvalid : Option Int → Bool
  | none => false
  | some n => n < 0 || n > 100

/-- Lines 56-58: `max-views` validation; `null < 0` is false. -/
def maxViewsInvalid : Option Int → Bool
  | none => false
  | some n => n < 0

/-- The absent file (JS `undefined`), used only as a `getD`/`headD`
default. -/
def noFile : UFile := ⟨"", "", 0, []⟩

/-- `req.files[0].buffer`: the body bytes of a chunk request. -/
def chunkBody (req : Req) : List Nat :=
  (req.files.headD noFile).buffer

/-- The File Record created at lines 130-141 for a finished chunked
upload: the stored extension becomes `jpg` when the compression flag is
set, but the mimetype is stored as received. -/
def chunkImage (cfg : Config) (o : Oracles) (req : Req) (cr : ContentRange)
    (user : User) : Image :=
  let ext := fileExt cr.filename
  let fileName := resolveFileName o cfg (parseFormat req.format) cr.filename
  let comp := compressionUsed req.percent cr.mimetype
  { file := fileName ++ "." ++ (if comp then "jpg" else ext)
    mimetype := cr.mimetype
    userId := user.id
    embed := req.embed
    format := parseFormat req.format
    password := req.password.map o.hashPassword
    expiresAt := req.expiresAt
    maxViews := req.maxViews }

/-- Lines 61-158: the `content-range` branch.  Returns the new chunk
store, the event trace and the response.  On the final chunk the
reassembly loop runs first: a chunk overrunning the declared total makes
`chunks.set` throw (line 96) and the request aborts fatally, the chunks
already visited unlinked, no record created and nothing saved; otherwise
the extension gate and ingestion follow.  Note there is no rate-limit
interaction and no size-limit check anywhere in this branch, and the
reassembled bytes are saved raw (no recompression). -/
def chunkedUpload (cfg : Config) (o : Oracles) (req : Req) (cr : ContentRange)
    (user : User) (fs : ChunkFS) : ChunkFS × List Event × HandlerResult :=
  let fs1 := fsWrite fs cr.identifier cr.start cr.stop (chunkBody req)
  if cr.lastchunk then
    let readChunks := listChunks fs1 cr.identifier
    match combineLoop readChunks (List.replicate cr.total 0) 0 with
    | .error j => (fsRemoveFirstMatches fs1 cr.identifier j, [], .fatal)
    | .ok chunks =>
      let fs2 := fsRemove fs1 cr.identifier
      let ext := fileExt cr.filename
      if cfg.disabled_extensions.contains ext then
        (fs2, [], .errorResp ("disabled extension recieved: " ++ ext))
      else
        let img := chunkImage cfg o req cr user
        let invisEvents := if req.zws then [Event.createInvis (o.invisChars 0)] else []
        let evs := [Event.createRecord img] ++ invisEvents ++ [Event.saveBlob img.file chunks]
        let url := hostUrl cfg req.host ++ routePart cfg ++ "/" ++
          (if req.zws then o.invisChars 0 else img.file)
        (fs2, evs, .filesJson [url] none)
  else
    (fs1, [], .chunkAck)

/-- The File Record created at lines 215-226 for one whole-uploaded file:
extension becomes `jpg` and mimetype `image/jpeg` under compression, with
the `uploadtext` header overriding the mimetype to `text/plain`. -/
def wholeImage (cfg : Config) (o : Oracles) (req : Req) (user : User)
    (f : UFile) : Image :=
  let ext := fileExt f.originalname
  let fileName := resolveFileName o cfg (parseFormat req.format) f.originalname
  let comp := compressionUsed req.percent f.mimetype
  { file := fileName ++ "." ++ (if comp then "jpg" else ext)
    mimetype :=
      if req.uploadtext then "text/plain"
      else if comp then "image/jpeg"
      else f.mimetype
    userId := user.id
    embed := req.embed
    format := parseFormat req.format
    password := req.password.map o.hashPassword
    expiresAt := req.expiresAt
    maxViews := req.maxViews }

/-- Lines 180-264: processing of one file of a whole-upload batch.
`Except.error` models the early `return res.error(...)`, which happens
before any record or blob write for that file. -/
def processFile (cfg : Config) (o : Oracles) (req : Req) (user : User)
    (i : Nat) (f : UFile) : Except String (List Event × String) :=
  if f.size > (if user.administrator then cfg.admin_limit else cfg.user_limit) then
    .error ("file[" ++ toString i ++ "]: size too big")
  else
    let ext := fileExt f.originalname
    if cfg.disabled_extensions.contains ext then
      .error ("file[" ++ toString i ++ "]: disabled extension recieved: " ++ ext)
    else
      let comp := compressionUsed req.percent f.mimetype
      let img := wholeImage cfg o req user f
      let invisEvents := if req.zws then [Event.createInvis (o.invisChars i)] else []
      let savedBytes := if comp then o.compressJpeg (req.percent.getD 0) f.buffer else f.buffer
      let link := if req.zws then o.invisChars i else img.file
      let url :=
        if user.domains.length ≠ 0 then
          user.domains.getD (o.domainIdx % user.domains.length) "" ++ routePart cfg ++ "/" ++ link
        else
          hostUrl cfg req.host ++ routePart cfg ++ "/" ++ link
      .ok ([Event.createRecord img] ++ invisEvents ++ [Event.saveBlob img.file savedBytes], url)

/-- The `for` loop over `req.files` (line 180): each file either ingests
fully (its events and response URL accumulate) or returns an error
response on the spot, keeping the already-accumulated effects but
processing no further file. -/
def processFiles (cfg : Config) (o : Oracles) (req : Req) (user : User) :
    Nat → List UFile → List Event × List String × Option String
  | _, [] => ([], [], none)
  | i, f :: rest =>
    match processFile cfg o req user i f with
    | .error e => ([], [], some e)
    | .ok (evs, url) =>
      let rec3 := processFiles cfg o req user (i + 1) rest
      (evs ++ rec3.1, url :: rec3.2.1, rec3.2.2)

/-- Lines 161-175: the entry rate-limit gate.  `inl rl` means the request
proceeds with the (possibly cleared) stored timestamp `rl`; `inr r`
means the request is rejected with `r` remaining milliseconds. -/
def checkRatelimit (rl : Option Nat) (now : Nat) : Option Nat ⊕ Int :=
  match rl with
  | none => .inl none
  | some t =>
    let remaining : Int := (t : Int) - (now : Int)
    if remaining ≤ 0 then .inl none else .inr remaining

/-- Lines 267-287: cooldown arming after a successful batch, modelled
verbatim - including the nested duplicate `user.administrator` test
inside the non-administrator branch. -/
def armCooldown (admin : Bool) (cfg : Config) (now : Nat) (rl : Option Nat) : Option Nat :=
  if admin ∧ cfg.ratelimit_admin > 0 then some (now + cfg.ratelimit_admin * 1000)
  else if ¬admin ∧ cfg.ratelimit_user > 0 then
    if admin ∧ cfg.ratelimit_user > 0 then some (now + cfg.ratelimit_user * 1000) else rl
  else rl

/-- Everything the handler leaves behind: the response, the persistent
event trace, the chunk store, and the user's stored cooldown. -/
structure HandlerOut where
  result : HandlerResult
  events : List Event
  fs : ChunkFS
  ratelimit : Option Nat
  deriving Repr, DecidableEq

/-- The handler body from the header validations (line 49) on: percent
and max-views validation, then the `content-range` branch (before any
rate limiting), then the rate-limit gate, the `no files` check, the
per-file loop, and cooldown arming. -/
def handler (cfg : Config) (o : Oracles) (req : Req) (user : User) (now : Nat)
    (fs : ChunkFS) : HandlerOut :=
  if percentInvalid req.percent then
    ⟨.errorResp "invalid image compression percent (% < 0 || % > 100)", [], fs, user.ratelimit⟩
  else if maxViewsInvalid req.maxViews then
    ⟨.errorResp "invalid max views (max views < 0)", [], fs, user.ratelimit⟩
  else
    match req.range with
    | some cr =>
      let out := chunkedUpload cfg o req cr user fs
      ⟨out.2.2, out.2.1, out.1, user.ratelimit⟩
    | none =>
      match checkRatelimit user.ratelimit now with
      | .inr remaining => ⟨.ratelimited remaining, [], fs, user.ratelimit⟩
      | .inl rl0 =>
        if req.files.length = 0 then ⟨.errorResp "no files", [], fs, rl0⟩
        else
          let pr := processFiles cfg o req user 0 req.files
          match pr.2.2 with
          | some e => ⟨.errorResp e, pr.1, fs, rl0⟩
          | none =>
            ⟨.filesJson pr.2.1 req.expiresAt, pr.1, fs,
              armCooldown user.administrator cfg now rl0⟩

/-! ## Concrete fixtures used by witnesses and counterexamples -/

def cfgFix : Config :=
  { disabled_extensions := ["exe"]
    length := 6
    format_date := "YYYY-MM-DD"
    route := "/u"
    https := true
    user_limit := 100
    admin_limit := 1000
    ratelimit_user := 5
    ratelimit_admin := 2 }

def oFix : Oracles :=
  { randomChars := fun n => String.mk (List.replicate n 'r')
    dateFormat := fun _ => "2026-10-12"
    uuid := "uuid-1234"
    compressJpeg := fun _ bs => 0 :: bs
    invisChars := fun i => "invis" ++ toString i
    hashPassword := fun s => "hash:" ++ s
    domainIdx := 0 }

def userFix : User :=
  { id := 7, administrator := false, ratelimit := none, domains := [] }

def filePng : UFile :=
  { originalname := "a.png", mimetype := "image/png", size := 3, buffer := [1, 2, 3] }

def fileExe : UFile :=
  { originalname := "b.exe", mimetype := "application/x-dos", size := 2, buffer := [4, 5] }

def reqWhole : Req :=
  { files := [filePng]
    range := none
    format := none
    percent := none
    maxViews := none
    password := none
    embed := false
    zws := false
    uploadtext := false
    expiresAt := none
    host := "h" }

def reqBatch : Req := { reqWhole with files := [filePng, fileExe] }

def reqP0 : Req := { reqWhole with percent := some 0 }

def reqP80 : Req := { reqWhole with percent := some 80 }

def crNotLast : ContentRange :=
  { start := 0, stop := 3, total := 6, filename := "a.png", mimetype := "image/png",
    identifier := "id1", lastchunk := false }

def crLast : ContentRange :=
  { start := 4, stop := 6, total := 6, filename := "a.png", mimetype := "image/png",
    identifier := "id1", lastchunk := true }

def reqChunk : Req := { reqWhole with range := some crNotLast }

def reqChunkLast : Req :=
  { reqWhole with files := [{ filePng with buffer := [7, 8] }], range := some crLast }

/-! ## C3 - cooldown arming for non-administrators -/

/-- C3: the arming code (lines 267-287) never sets a cooldown for a
non-administrator, whatever the configured user cooldown duration: the
branch for non-administrators re-tests `user.administrator` inside and so
never fires.  The stored timestamp is left unchanged instead of being set
to `now + duration`. -/
theorem armCooldown_nonadmin_noop (cfg : Config) (now : Nat) (rl : Option Nat) :
    armCooldown false cfg now rl = rl := by
  simp [armCooldown]

/-! ## C8 - unrecognized/absent format selector falls back to RANDOM -/

/-- C8: when the format selector header is absent, or its uppercased value
is none of `RANDOM`, `DATE`, `UUID`, `NAME`, the filename stem resolves
exactly as the `RANDOM` format does: `randomChars(zconfig.uploader.length)`. -/
theorem unrecognized_format_resolves_as_random (o : Oracles) (cfg : Config)
    (h : Option String) (name : String)
    (hun : ∀ s, h = some s →
      jsToUpper s ≠ "RANDOM" ∧ jsToUpper s ≠ "DATE" ∧
      jsToUpper s ≠ "UUID" ∧ jsToUpper s ≠ "NAME") :
    resolveFileName o cfg (parseFormat h) name = o.randomChars cfg.length ∧
    resolveFileName o cfg (some .RANDOM) name = o.randomChars cfg.length := by
  refine ⟨?_, rfl⟩
  cases h with
  | none => rfl
  | some s =>
    obtain ⟨h1, h2, h3, h4⟩ := hun s rfl
    by_cases hempty : jsToUpper s = ""
    · simp [parseFormat, hempty, resolveFileName]
    · simp [parseFormat, hempty, h1, h2, h3, h4, resolveFileName]

/-- Witness for `unrecognized_format_resolves_as_random` at the selector
`"banana"`. -/
theorem unrecognized_format_resolves_as_random_witness :
    resolveFileName oFix cfgFix (parseFormat (some "banana")) "a.png" =
      oFix.randomChars cfgFix.length ∧
    resolveFileName oFix cfgFix (some .RANDOM) "a.png" = oFix.randomChars cfgFix.length :=
  unrecognized_format_resolves_as_random oFix cfgFix (some "banana") "a.png"
    (fun s hs => by cases hs; exact ⟨by decide, by decide, by decide, by decide⟩)

/-! ## C2 - when compression applies -/

/-- C2 counterexample: a compression percent of `0` is supplied and lies in
the claimed range 0-100, the mimetype is an image one, yet compression is
not applied (JS `0` is falsy in `imageCompressionPercent && ...`): the
created record keeps the original extension and mimetype. -/
theorem compression_zero_percent_cex :
    percentInvalid (some 0) = false ∧
    jsStartsWith "image/png" "image/" = true ∧
    compressionUsed (some 0) "image/png" = false ∧
    (wholeImage cfgFix oFix reqP0 userFix filePng).file = "rrrrrr.png" ∧
    (wholeImage cfgFix oFix reqP0 userFix filePng).mimetype = "image/png" := by
  exact ⟨by decide, by decide, by decide, by decide, by decide⟩

/-- C2 (amended): given a percent that passed the range validation,
compression applies iff a nonzero percent in 1-100 was supplied and the
mimetype begins with `image/`.  When it applies, the stored extension is
`jpg` on both paths; the record mimetype becomes `image/jpeg` on the
whole-upload path unless the `uploadtext` flag overrides it to
`text/plain`, while the chunked path stores the original mimetype
unchanged. -/
theorem compression_policy (cfg : Config) (o : Oracles) (req : Req) (user : User)
    (f : UFile) (cr : ContentRange)
    (hval : percentInvalid req.percent = false) :
    (compressionUsed req.percent f.mimetype = true ↔
      (∃ n, req.percent = some n ∧ 1 ≤ n ∧ n ≤ 100) ∧
        jsStartsWith f.mimetype "image/" = true) ∧
    (compressionUsed req.percent f.mimetype = true →
      (wholeImage cfg o req user f).file =
        resolveFileName o cfg (parseFormat req.format) f.originalname ++ ".jpg" ∧
      (wholeImage cfg o req user f).mimetype =
        (if req.uploadtext then "text/plain" else "image/jpeg")) ∧
    (compressionUsed req.percent cr.mimetype = true →
      (chunkImage cfg o req cr user).file =
        resolveFileName o cfg (parseFormat req.format) cr.filename ++ ".jpg" ∧
      (chunkImage cfg o req cr user).mimetype = cr.mimetype) := by
  refine ⟨?_, ?_, ?_⟩
  · cases hp : req.percent with
    | none => simp [compressionUsed, percentTruthy]
    | some n =>
      rw [hp] at hval
      simp only [percentInvalid, Bool.or_eq_false_iff, decide_eq_false_iff_not,
        not_lt] at hval
      simp only [compressionUsed, percentTruthy, Bool.and_eq_true, bne_iff_ne,
        ne_eq]
      constructor
      · rintro ⟨hn, hs⟩
        exact ⟨⟨n, rfl, by omega, by omega⟩, hs⟩
      · rintro ⟨⟨m, hm, hm1, hm100⟩, hs⟩
        cases hm
        exact ⟨by omega, hs⟩
  · intro hcomp
    have hj : ("." : String) ++ "jpg" = ".jpg" := rfl
    simp [wholeImage, hcomp, String.append_assoc, hj]
  · intro hcomp
    have hj : ("." : String) ++ "jpg" = ".jpg" := rfl
    simp [chunkImage, hcomp, String.append_assoc, hj]

/-- Witness for `compression_policy`: percent 80 on an `image/png` file. -/
theorem compression_policy_witness :
    (wholeImage cfgFix oFix reqP80 userFix filePng).file = "rrrrrr.jpg" ∧
    (wholeImage cfgFix oFix reqP80 userFix filePng).mimetype = "image/jpeg" := by
  obtain ⟨hf, hm⟩ :=
    (compression_policy cfgFix oFix reqP80 userFix filePng crLast (by decide)).2.1 (by decide)
  refine ⟨?_, ?_⟩
  · rw [hf]; decide
  · rw [hm]; decide

/-! ## C7 - the rate-limit gate -/

/-- C7 counterexample: a chunk (content-range) request from a user whose
stored cooldown lies in the future (999999 > now = 1000) is processed and
acknowledged, not rejected: the code handles partial uploads before the
rate-limit gate. -/
theorem chunked_ratelimit_bypass_cex :
    (handler cfgFix oFix reqChunk { userFix with ratelimit := some 999999 } 1000 []).result
      = .chunkAck ∧
    (handler cfgFix oFix reqChunk { userFix with ratelimit := some 999999 } 1000 []).result
      ≠ .ratelimited (999999 - 1000) := by
  exact ⟨by decide, by decide⟩

theorem processFile_ratelimit_irrel (cfg : Config) (o : Oracles) (req : Req)
    (user : User) (rl : Option Nat) (i : Nat) (f : UFile) :
    processFile cfg o req { user with ratelimit := rl } i f =
      processFile cfg o req user i f := rfl

theorem processFiles_ratelimit_irrel (cfg : Config) (o : Oracles) (req : Req)
    (user : User) (rl : Option Nat) :
    ∀ (i : Nat) (files : List UFile),
      processFiles cfg o req { user with ratelimit := rl } i files =
        processFiles cfg o req user i files := by
  intro i files
  induction files generalizing i with
  | nil => rfl
  | cons f rest ih =>
    cases hpf : processFile cfg o req user i f with
    | error e =>
      simp [processFiles, processFile_ratelimit_irrel cfg o req user rl i f, hpf]
    | ok p =>
      simp [processFiles, processFile_ratelimit_irrel cfg o req user rl i f, hpf, ih]

theorem chunkedUpload_ratelimit_irrel (cfg : Config) (o : Oracles) (req : Req)
    (cr : ContentRange) (user : User) (rl : Option Nat) (fs : ChunkFS) :
    chunkedUpload cfg o req cr { user with ratelimit := rl } fs =
      chunkedUpload cfg o req cr user fs := rfl

/-- C7 (amended): for whole-upload requests the gate behaves as claimed -
a future stored cooldown rejects the request with `cooldown - now`
remaining milliseconds and no side effects, an expired one is cleared and
the request proceeds exactly as if no cooldown were stored.  Chunked
(content-range) requests, however, bypass the gate entirely: they are
processed identically whatever the stored cooldown, which is left
untouched. -/
theorem ratelimit_gate_whole_only (cfg : Config) (o : Oracles) (req : Req) (user : User)
    (now : Nat) (fs : ChunkFS)
    (hp : percentInvalid req.percent = false)
    (hm : maxViewsInvalid req.maxViews = false) :
    (∀ t, req.range = none → user.ratelimit = some t → (now : Int) < (t : Int) →
      handler cfg o req user now fs =
        ⟨.ratelimited ((t : Int) - (now : Int)), [], fs, some t⟩) ∧
    (∀ t, req.range = none → user.ratelimit = some t → (t : Int) ≤ (now : Int) →
      handler cfg o req user now fs =
        handler cfg o req { user with ratelimit := none } now fs) ∧
    (∀ cr, req.range = some cr →
      handler cfg o req user now fs =
        { handler cfg o req { user with ratelimit := none } now fs with
            ratelimit := user.ratelimit }) := by
  refine ⟨?_, ?_, ?_⟩
  · intro t hrange hrl hfut
    have hnotle : ¬ ((t : Int) - (now : Int) ≤ 0) := by omega
    simp [handler, hp, hm, hrange, checkRatelimit, hrl, hnotle]
  · intro t hrange hrl hexp
    have hle : (t : Int) - (now : Int) ≤ 0 := by omega
    simp only [handler, hp, hm, Bool.false_eq_true, if_false, hrange, checkRatelimit, hrl,
      hle, if_true]
    rw [processFiles_ratelimit_irrel cfg o req user none]
  · intro cr hrange
    simp only [handler, hp, hm, Bool.false_eq_true, if_false, hrange,
      chunkedUpload_ratelimit_irrel cfg o req cr user none]

/-- Witness for `ratelimit_gate_whole_only`: a whole upload at `now = 1000`
with a stored cooldown of 2000 is rejected with 1000 ms remaining. -/
theorem ratelimit_gate_whole_only_witness :
    handler cfgFix oFix reqWhole { userFix with ratelimit := some 2000 } 1000 [] =
      ⟨.ratelimited ((2000 : Int) - (1000 : Int)), [], [], some 2000⟩ :=
  (ratelimit_gate_whole_only cfgFix oFix reqWhole { userFix with ratelimit := some 2000 }
      1000 [] (by decide) (by decide)).1 2000 rfl rfl (by decide)

/-! ## C9 - intermediate chunk requests -/

theorem sameKey_eq_iff (e : ChunkEntry) (id : String) (s t : Nat) :
    sameKey e id s t = true ↔ e.identifier = id ∧ e.start = s ∧ e.stop = t := by
  simp [sameKey, and_assoc]

theorem sameKey_setBytes (e : ChunkEntry) (b : List Nat) (id : String) (s t : Nat) :
    sameKey { e with bytes := b } id s t = sameKey e id s t := rfl

/-- What `fsLookup` sees after a `fsWrite`: the written key now holds the
new bytes, every other key is untouched. -/
theorem fsLookup_fsWrite (fs : ChunkFS) (id : String) (s t : Nat) (b : List Nat)
    (id2 : String) (s2 t2 : Nat) :
    fsLookup (fsWrite fs id s t b) id2 s2 t2 =
      if id2 = id ∧ s2 = s ∧ t2 = t then some b
      else fsLookup fs id2 s2 t2 := by
  induction fs with
  | nil =>
    by_cases hk : id2 = id ∧ s2 = s ∧ t2 = t
    · obtain ⟨h1, h2, h3⟩ := hk
      subst h1; subst h2; subst h3
      simp [fsWrite, fsLookup, sameKey]
    · have hsk : sameKey ⟨id, s, t, b⟩ id2 s2 t2 = false := by
        rw [Bool.eq_false_iff]
        intro hc
        rw [sameKey_eq_iff] at hc
        exact hk ⟨hc.1.symm, hc.2.1.symm, hc.2.2.symm⟩
      simp [fsWrite, fsLookup, List.find?, hsk, hk]
  | cons e fs ih =>
    by_cases he : sameKey e id s t = true
    · have hkey := (sameKey_eq_iff e id s t).mp he
      by_cases hk : id2 = id ∧ s2 = s ∧ t2 = t
      · have hse : sameKey e id2 s2 t2 = true := by
          rw [sameKey_eq_iff]
          exact ⟨hkey.1.trans hk.1.symm, hkey.2.1.trans hk.2.1.symm,
            hkey.2.2.trans hk.2.2.symm⟩
        simp [fsWrite, he, fsLookup, List.find?, sameKey_setBytes, hse, hk]
      · have hse : sameKey e id2 s2 t2 = false := by
          rw [Bool.eq_false_iff]
          intro hc
          rw [sameKey_eq_iff] at hc
          exact hk ⟨hc.1.symm.trans hkey.1, hc.2.1.symm.trans hkey.2.1,
            hc.2.2.symm.trans hkey.2.2⟩
        simp [fsWrite, he, fsLookup, List.find?, sameKey_setBytes, hse, hk]
    · have he' : sameKey e id s t = false := Bool.eq_false_iff.mpr he
      by_cases hse : sameKey e id2 s2 t2 = true
      · have hk : ¬ (id2 = id ∧ s2 = s ∧ t2 = t) := by
          intro hk
          apply he
          rw [sameKey_eq_iff] at hse ⊢
          exact ⟨hse.1.trans hk.1, hse.2.1.trans hk.2.1, hse.2.2.trans hk.2.2⟩
        simp [fsWrite, he', fsLookup, List.find?, hse, hk]
      · have hse' : sameKey e id2 s2 t2 = false := Bool.eq_false_iff.mpr hse
        have := ih
        simp only [fsLookup, List.find?] at this ⊢
        simp [fsWrite, he', hse', this]
  
/-- C9 counterexample: an intermediate chunk request whose range collides
with an already-stored chunk of the same identifier overwrites it: the
previously stored bytes `[1,2,3]` under `(id1, 0, 3)` are replaced by the
request body `[9,9,9]`, so not every previously stored chunk of the
identifier is left unchanged. -/
theorem chunk_overwrite_cex :
    fsLookup [⟨"id1", 0, 3, [1, 2, 3]⟩] "id1" 0 3 = some [1, 2, 3] ∧
    (handler cfgFix oFix { reqChunk with files := [{ filePng with buffer := [9, 9, 9] }] }
        userFix 1000 [⟨"id1", 0, 3, [1, 2, 3]⟩]).result = .chunkAck ∧
    fsLookup (handler cfgFix oFix
        { reqChunk with files := [{ filePng with buffer := [9, 9, 9] }] }
        userFix 1000 [⟨"id1", 0, 3, [1, 2, 3]⟩]).fs "id1" 0 3 = some [9, 9, 9] := by
  exact ⟨by decide, by decide, by decide⟩

/-- C9 (amended): a content-range request whose last-chunk flag is unset
persists its body under the key `(identifier, start, end)`, answers
`{success: true}`, creates no File Record, writes nothing to the blob
store, leaves the stored cooldown untouched, and leaves every chunk
stored under a *different* `(identifier, start, end)` key unchanged; a
previously stored chunk under the *same* key is overwritten. -/
theorem chunk_put_frame (cfg : Config) (o : Oracles) (req : Req) (user : User)
    (now : Nat) (fs : ChunkFS) (cr : ContentRange)
    (hp : percentInvalid req.percent = false)
    (hm : maxViewsInvalid req.maxViews = false)
    (hrange : req.range = some cr)
    (hlast : cr.lastchunk = false) :
    (handler cfg o req user now fs).result = .chunkAck ∧
    (handler cfg o req user now fs).events = [] ∧
    (handler cfg o req user now fs).ratelimit = user.ratelimit ∧
    fsLookup (handler cfg o req user now fs).fs cr.identifier cr.start cr.stop =
      some (chunkBody req) ∧
    (∀ id2 s2 t2, ¬ (id2 = cr.identifier ∧ s2 = cr.start ∧ t2 = cr.stop) →
      fsLookup (handler cfg o req user now fs).fs id2 s2 t2 = fsLookup fs id2 s2 t2) := by
  have hout : handler cfg o req user now fs =
      ⟨.chunkAck, [], fsWrite fs cr.identifier cr.start cr.stop (chunkBody req),
        user.ratelimit⟩ := by
    simp [handler, hp, hm, hrange, chunkedUpload, hlast]
  rw [hout]
  refine ⟨rfl, rfl, rfl, ?_, ?_⟩
  · rw [fsLookup_fsWrite]
    simp
  · intro id2 s2 t2 hk
    rw [fsLookup_fsWrite]
    simp [hk]

/-- Witness for `chunk_put_frame`: a first chunk into an empty store. -/
theorem chunk_put_frame_witness :
    (handler cfgFix oFix reqChunk userFix 1000 []).result = .chunkAck ∧
    fsLookup (handler cfgFix oFix reqChunk userFix 1000 []).fs "id1" 0 3 =
      some [1, 2, 3] := by
  have h := chunk_put_frame cfgFix oFix reqChunk userFix 1000 [] crNotLast
    (by decide) (by decide) rfl rfl
  exact ⟨h.1, h.2.2.2.1⟩

/-! ## C6 - record creation precedes the blob write -/

def isRecord : Event → Bool
  | .createRecord _ => true
  | _ => false

def isSave : Event → Bool
  | .saveBlob _ _ => true
  | _ => false

/-- Number of `prisma.image.create` calls in a trace. -/
def countRecord (evs : List Event) : Nat := (evs.filter isRecord).length

/-- Number of `datasource.save` calls in a trace. -/
def countSave (evs : List Event) : Nat := (evs.filter isSave).length

/-- Every blob-store save in the trace is preceded by strictly more record
creations than there are saves up to and including it: the n-th save can
only happen once at least n records exist.  In particular the first save
requires a record to have been created strictly before it. -/
def saveAfterRecord (evs : List Event) : Prop :=
  ∀ n, countSave (evs.take (n + 1)) ≤ countRecord (evs.take n)

theorem countRecord_append (xs ys : List Event) :
    countRecord (xs ++ ys) = countRecord xs + countRecord ys := by
  simp [countRecord, List.filter_append]

theorem countSave_append (xs ys : List Event) :
    countSave (xs ++ ys) = countSave xs + countSave ys := by
  simp [countSave, List.filter_append]

theorem saveAfterRecord_nil : saveAfterRecord [] := by
  intro n
  simp [countSave, countRecord]

theorem countSave_take_le (evs : List Event) (k : Nat) :
    countSave (evs.take k) ≤ countSave evs :=
  (((List.take_sublist k evs).filter isSave).length_le : _)

theorem saveAfterRecord_append (xs ys : List Event)
    (h1 : saveAfterRecord xs) (hbal : countSave xs ≤ countRecord xs)
    (h2 : saveAfterRecord ys) : saveAfterRecord (xs ++ ys) := by
  intro n
  rw [List.take_append_eq_append_take, List.take_append_eq_append_take,
    countSave_append, countRecord_append]
  by_cases hn : n < xs.length
  · have e1 : n + 1 - xs.length = 0 := by omega
    have e2 : n - xs.length = 0 := by omega
    rw [e1, e2]
    simpa [countSave, countRecord] using h1 n
  · have e1 : xs.take (n + 1) = xs := List.take_of_length_le (by omega)
    have e2 : xs.take n = xs := List.take_of_length_le (by omega)
    have e3 : n + 1 - xs.length = (n - xs.length) + 1 := by omega
    rw [e1, e2, e3]
    have := h2 (n - xs.length)
    omega

/-- The per-upload effect block `[createRecord, (createInvis?), saveBlob]`
satisfies the ordering property and is balanced. -/
theorem saveAfterRecord_block (img : Image) (mid : List Event)
    (hmid : ∀ e ∈ mid, isSave e = false ∧ isRecord e = false)
    (k : String) (b : List Nat) :
    saveAfterRecord ([Event.createRecord img] ++ mid ++ [Event.saveBlob k b]) ∧
    countSave ([Event.createRecord img] ++ mid ++ [Event.saveBlob k b]) = 1 ∧
    countRecord ([Event.createRecord img] ++ mid ++ [Event.saveBlob k b]) = 1 := by
  have hmidS : countSave mid = 0 := by
    have hnil : mid.filter isSave = [] :=
      List.filter_eq_nil_iff.mpr (fun e he => by simp [(hmid e he).1])
    simp [countSave, hnil]
  have hmidR : countRecord mid = 0 := by
    have hnil : mid.filter isRecord = [] :=
      List.filter_eq_nil_iff.mpr (fun e he => by simp [(hmid e he).2])
    simp [countRecord, hnil]
  have htotS : countSave ([Event.createRecord img] ++ mid ++ [Event.saveBlob k b]) = 1 := by
    rw [countSave_append, countSave_append, hmidS]
    simp [countSave, List.filter, isSave]
  have htotR : countRecord ([Event.createRecord img] ++ mid ++ [Event.saveBlob k b]) = 1 := by
    rw [countRecord_append, countRecord_append, hmidR]
    simp [countRecord, List.filter, isRecord]
  refine ⟨?_, htotS, htotR⟩
  intro n
  cases n with
  | zero =>
    simp [countSave, countRecord, List.filter, isSave]
  | succ m =>
    have hmono := countSave_take_le
      ([Event.createRecord img] ++ mid ++ [Event.saveBlob k b]) (m + 1 + 1)
    have hrec : 1 ≤ countRecord
        (([Event.createRecord img] ++ mid ++ [Event.saveBlob k b]).take (m + 1)) := by
      have : ([Event.createRecord img] ++ mid ++ [Event.saveBlob k b]).take (m + 1) =
          Event.createRecord img :: (mid ++ [Event.saveBlob k b]).take m := by
        simp [List.take_succ_cons]
      rw [this]
      simp [countRecord, List.filter, isRecord]
    omega

/-- A successful `processFile` emits exactly the balanced block
`[createRecord, (createInvis)?, saveBlob]`. -/
theorem processFile_ok_events (cfg : Config) (o : Oracles) (req : Req) (user : User)
    (i : Nat) (f : UFile) (evs : List Event) (url : String)
    (h : processFile cfg o req user i f = .ok (evs, url)) :
    saveAfterRecord evs ∧ countSave evs = 1 ∧ countRecord evs = 1 := by
  simp only [processFile] at h
  split at h
  all_goals split at h
  all_goals try exact Except.noConfusion h
  all_goals split at h
  all_goals try exact Except.noConfusion h
  all_goals
    injection h with hpair
  all_goals
    injection hpair with hevs hurl
  all_goals
    subst hevs
  all_goals
    exact saveAfterRecord_block _ _ (by split <;> simp [isSave, isRecord]) _ _

theorem processFiles_events (cfg : Config) (o : Oracles) (req : Req) (user : User) :
    ∀ (i : Nat) (files : List UFile),
      saveAfterRecord (processFiles cfg o req user i files).1 ∧
      countSave (processFiles cfg o req user i files).1 ≤
        countRecord (processFiles cfg o req user i files).1 := by
  intro i files
  induction files generalizing i with
  | nil =>
    exact ⟨saveAfterRecord_nil, by simp [processFiles, countSave, countRecord]⟩
  | cons f rest ih =>
    cases hpf : processFile cfg o req user i f with
    | error e =>
      exact ⟨by simpa [processFiles, hpf] using saveAfterRecord_nil,
        by simp [processFiles, hpf, countSave, countRecord]⟩
    | ok p =>
      obtain ⟨evs, url⟩ := p
      obtain ⟨hA, hS, hR⟩ := processFile_ok_events cfg o req user i f evs url hpf
      obtain ⟨hA2, hB2⟩ := ih (i + 1)
      constructor
      · simpa [processFiles, hpf] using
          saveAfterRecord_append _ _ hA (by omega) hA2
      · simp only [processFiles, hpf]
        rw [countSave_append, countRecord_append]
        omega

theorem chunkedUpload_events_sar (cfg : Config) (o : Oracles) (req : Req)
    (cr : ContentRange) (user : User) (fs : ChunkFS) :
    saveAfterRecord (chunkedUpload cfg o req cr user fs).2.1 := by
  simp only [chunkedUpload]
  split
  · split
    · exact saveAfterRecord_nil
    · split
      · exact saveAfterRecord_nil
      · exact (saveAfterRecord_block _ _
          (by split <;> simp [isSave, isRecord]) _ _).1
  · exact saveAfterRecord_nil

/-- C6: in every run of the handler - whole-file batches and reassembled
chunked uploads alike - each blob-store save is preceded by the creation
of its File Record: the trace never performs the n-th `datasource.save`
before at least n `prisma.image.create` calls have happened strictly
earlier. -/
theorem record_created_before_save (cfg : Config) (o : Oracles) (req : Req)
    (user : User) (now : Nat) (fs : ChunkFS) :
    saveAfterRecord (handler cfg o req user now fs).events := by
  unfold handler
  by_cases hp : percentInvalid req.percent = true
  · simpa [hp] using saveAfterRecord_nil
  · by_cases hm : maxViewsInvalid req.maxViews = true
    · simpa [hp, hm] using saveAfterRecord_nil
    · cases hr : req.range with
      | some cr =>
        simpa [hp, hm, hr] using chunkedUpload_events_sar cfg o req cr user fs
      | none =>
        cases hc : checkRatelimit user.ratelimit now with
        | inr r => simpa [hp, hm, hr, hc] using saveAfterRecord_nil
        | inl rl0 =>
          by_cases hf : req.files.length = 0
          · simpa [hp, hm, hr, hc, hf] using saveAfterRecord_nil
          · have hsar := (processFiles_events cfg o req user 0 req.files).1
            cases he : (processFiles cfg o req user 0 req.files).2.2 with
            | some e => simpa [hp, hm, hr, hc, hf, he] using hsar
            | none => simpa [hp, hm, hr, hc, hf, he] using hsar

/-! ## C4 / C10 - per-file validation in the whole-upload loop -/

/-- File `f` passes the role-based size check of line 182. -/
def sizeOk (cfg : Config) (user : User) (f : UFile) : Prop :=
  ¬ f.size > (if user.administrator then cfg.admin_limit else cfg.user_limit)

instance (cfg : Config) (user : User) (f : UFile) : Decidable (sizeOk cfg user f) := by
  unfold sizeOk; infer_instance

/-- File `f` passes the disabled-extension check of line 186. -/
def extOk (cfg : Config) (f : UFile) : Prop :=
  ¬ cfg.disabled_extensions.contains (fileExt f.originalname) = true

instance (cfg : Config) (f : UFile) : Decidable (extOk cfg f) := by
  unfold extOk; infer_instance

theorem processFile_oversized (cfg : Config) (o : Oracles) (req : Req) (user : User)
    (i : Nat) (f : UFile)
    (h : f.size > (if user.administrator then cfg.admin_limit else cfg.user_limit)) :
    processFile cfg o req user i f =
      .error ("file[" ++ toString i ++ "]: size too big") := by
  simp only [processFile]
  rw [if_pos h]

theorem processFile_disabled (cfg : Config) (o : Oracles) (req : Req) (user : User)
    (i : Nat) (f : UFile) (hsz : sizeOk cfg user f)
    (hext : cfg.disabled_extensions.contains (fileExt f.originalname) = true) :
    processFile cfg o req user i f =
      .error ("file[" ++ toString i ++ "]: disabled extension recieved: " ++
        fileExt f.originalname) := by
  simp only [processFile]
  rw [if_neg hsz, if_pos hext]

theorem processFile_passes_ok (cfg : Config) (o : Oracles) (req : Req) (user : User)
    (i : Nat) (f : UFile) (hsz : sizeOk cfg user f) (hext : extOk cfg f) :
    ∃ evs url, processFile cfg o req user i f = .ok (evs, url) := by
  simp only [processFile]
  rw [if_neg hsz, if_neg hext]
  exact ⟨_, _, rfl⟩

/-- The loop reaching a file whose extension is disabled (all earlier
files passing both checks): it stops with the disabled-extension error
for that index, having emitted exactly one record and one save per
earlier file. -/
theorem processFiles_disabled_at (cfg : Config) (o : Oracles) (req : Req) (user : User) :
    ∀ (k : Nat) (files : List UFile) (i : Nat), i < files.length →
      (∀ j, j < i → sizeOk cfg user (files.getD j noFile) ∧ extOk cfg (files.getD j noFile)) →
      sizeOk cfg user (files.getD i noFile) →
      cfg.disabled_extensions.contains (fileExt (files.getD i noFile).originalname) = true →
      (processFiles cfg o req user k files).2.2 =
        some ("file[" ++ toString (k + i) ++ "]: disabled extension recieved: " ++
          fileExt (files.getD i noFile).originalname) ∧
      countRecord (processFiles cfg o req user k files).1 = i ∧
      countSave (processFiles cfg o req user k files).1 = i := by
  intro k files
  induction files generalizing k with
  | nil => intro i hi; simp at hi
  | cons f rest ih =>
    intro i hi hprev hsz hext
    cases i with
    | zero =>
      have hf := processFile_disabled cfg o req user k f (by simpa using hsz)
        (by simpa using hext)
      refine ⟨?_, ?_, ?_⟩ <;>
        simp [processFiles, hf, countRecord, countSave]
    | succ i2 =>
      obtain ⟨h0sz, h0ext⟩ := hprev 0 (by omega)
      obtain ⟨evs, url, hpf⟩ := processFile_passes_ok cfg o req user k f
        (by simpa using h0sz) (by simpa using h0ext)
      obtain ⟨_, hS1, hR1⟩ := processFile_ok_events cfg o req user k f evs url hpf
      have hih := ih (k + 1) i2 (by simpa using Nat.lt_of_succ_lt_succ hi)
        (fun j hj => by simpa using hprev (j + 1) (by omega))
        (by simpa using hsz) (by simpa using hext)
      have hidx : k + 1 + i2 = k + (i2 + 1) := by omega
      rw [hidx] at hih
      refine ⟨?_, ?_, ?_⟩
      · simpa [processFiles, hpf] using hih.1
      · simp only [processFiles, hpf]
        rw [countRecord_append]
        have h2 := hih.2.1
        omega
      · simp only [processFiles, hpf]
        rw [countSave_append]
        have h2 := hih.2.2
        omega

/-- C4 counterexample: in the batch `[a.png, b.exe]` (with `exe` a
configured disabled extension) the request is rejected, but by the time
the rejection happens the first file has already been fully ingested: one
File Record was created and one blob was written. -/
theorem batch_disabled_extension_cex :
    (handler cfgFix oFix reqBatch userFix 1000 []).result =
      .errorResp "file[1]: disabled extension recieved: exe" ∧
    countRecord (handler cfgFix oFix reqBatch userFix 1000 []).events = 1 ∧
    countSave (handler cfgFix oFix reqBatch userFix 1000 []).events = 1 := by
  exact ⟨by decide, by decide, by decide⟩

/-- C4 (amended): when the first file of a whole-upload batch that fails a
check is at index `i` and fails the disabled-extension check, the request
is rejected with that error, no record and no bytes are produced for the
offending file or any later file, but each of the `i` earlier files has
already been ingested (one record and one blob write apiece), and no
cooldown is armed. -/
theorem disabled_extension_midbatch (cfg : Config) (o : Oracles) (req : Req)
    (user : User) (now : Nat) (fs : ChunkFS) (i : Nat)
    (hp : percentInvalid req.percent = false)
    (hm : maxViewsInvalid req.maxViews = false)
    (hrange : req.range = none)
    (hrl : user.ratelimit = none)
    (hi : i < req.files.length)
    (hprev : ∀ j, j < i →
      sizeOk cfg user (req.files.getD j noFile) ∧ extOk cfg (req.files.getD j noFile))
    (hsz : sizeOk cfg user (req.files.getD i noFile))
    (hext : cfg.disabled_extensions.contains
      (fileExt (req.files.getD i noFile).originalname) = true) :
    (handler cfg o req user now fs).result =
      .errorResp ("file[" ++ toString i ++ "]: disabled extension recieved: " ++
        fileExt (req.files.getD i noFile).originalname) ∧
    countRecord (handler cfg o req user now fs).events = i ∧
    countSave (handler cfg o req user now fs).events = i ∧
    (handler cfg o req user now fs).ratelimit = none := by
  have hpr := processFiles_disabled_at cfg o req user 0 req.files i hi hprev hsz hext
  have hz : (0 : Nat) + i = i := by omega
  rw [hz] at hpr
  have hne : ¬ req.files.length = 0 := by omega
  cases hce : (processFiles cfg o req user 0 req.files).2.2 with
  | none => rw [hce] at hpr; exact absurd hpr.1 (by simp)
  | some e =>
    rw [hce] at hpr
    have he : e = "file[" ++ toString i ++ "]: disabled extension recieved: " ++
        fileExt (req.files.getD i noFile).originalname := by
      have := hpr.1
      simpa using this
    refine ⟨?_, ?_, ?_, ?_⟩ <;>
      simp [handler, hp, hm, hrange, checkRatelimit, hrl, hne, hce, he, hpr.2.1, hpr.2.2]

/-- Witness for `disabled_extension_midbatch` at the concrete two-file
batch. -/
theorem disabled_extension_midbatch_witness :
    (handler cfgFix oFix reqBatch userFix 2000 []).result =
      .errorResp ("file[" ++ toString 1 ++ "]: disabled extension recieved: " ++
        fileExt (reqBatch.files.getD 1 noFile).originalname) ∧
    countRecord (handler cfgFix oFix reqBatch userFix 2000 []).events = 1 ∧
    countSave (handler cfgFix oFix reqBatch userFix 2000 []).events = 1 ∧
    (handler cfgFix oFix reqBatch userFix 2000 []).ratelimit = none :=
  disabled_extension_midbatch cfgFix oFix reqBatch userFix 2000 [] 1
    (by decide) (by decide) rfl rfl (by decide) (by decide) (by decide) (by decide)

/-- A batch containing an oversized file never finishes cleanly: the loop
errors at or before that file, and the oversized file's record (and those
of later files) is never created. -/
theorem processFiles_oversized_within (cfg : Config) (o : Oracles) (req : Req)
    (user : User) :
    ∀ (k : Nat) (files : List UFile) (i : Nat), i < files.length →
      (files.getD i noFile).size >
        (if user.administrator then cfg.admin_limit else cfg.user_limit) →
      (processFiles cfg o req user k files).2.2 ≠ none ∧
      countRecord (processFiles cfg o req user k files).1 ≤ i := by
  intro k files
  induction files generalizing k with
  | nil => intro i hi; simp at hi
  | cons f rest ih =>
    intro i hi hbig
    cases hpf : processFile cfg o req user k f with
    | error e =>
      refine ⟨?_, ?_⟩ <;> simp [processFiles, hpf, countRecord]
    | ok p =>
      obtain ⟨evs, url⟩ := p
      obtain ⟨_, hS1, hR1⟩ := processFile_ok_events cfg o req user k f evs url hpf
      cases i with
      | zero =>
        have : processFile cfg o req user k f =
            .error ("file[" ++ toString k ++ "]: size too big") :=
          processFile_oversized cfg o req user k f (by simpa using hbig)
        rw [hpf] at this
        exact Except.noConfusion this
      | succ i2 =>
        have hih := ih (k + 1) i2 (by simpa using Nat.lt_of_succ_lt_succ hi)
          (by simpa using hbig)
        refine ⟨?_, ?_⟩
        · simpa [processFiles, hpf] using hih.1
        · simp only [processFiles, hpf]
          rw [countRecord_append]
          have h2 := hih.2
          omega

theorem chunkedUpload_limits_irrel (cfg : Config) (o : Oracles) (req : Req)
    (cr : ContentRange) (user : User) (fs : ChunkFS) (a b : Nat) :
    chunkedUpload { cfg with user_limit := a, admin_limit := b } o req cr user fs =
      chunkedUpload cfg o req cr user fs := rfl

/-- C10: the per-file size limit exists only on the whole-upload path - a
batch containing a file over the role-based limit is rejected with an
error before that file's record is created (records exist only for files
before it) - while the chunked path runs identically under any values of
the two configured limits: no chunk and no reassembled total is ever
checked against them. -/
theorem size_limit_whole_only (cfg : Config) (o : Oracles) (req : Req) (user : User)
    (now : Nat) (fs : ChunkFS) (i a b : Nat)
    (hp : percentInvalid req.percent = false)
    (hm : maxViewsInvalid req.maxViews = false) :
    (req.range = none → user.ratelimit = none → i < req.files.length →
      (req.files.getD i noFile).size >
        (if user.administrator then cfg.admin_limit else cfg.user_limit) →
      (∃ msg, (handler cfg o req user now fs).result = .errorResp msg) ∧
      countRecord (handler cfg o req user now fs).events ≤ i) ∧
    (∀ cr, req.range = some cr →
      handler { cfg with user_limit := a, admin_limit := b } o req user now fs =
        handler cfg o req user now fs) := by
  constructor
  · intro hrange hrl hi hbig
    have hpr := processFiles_oversized_within cfg o req user 0 req.files i hi hbig
    have hne : ¬ req.files.length = 0 := by omega
    cases hce : (processFiles cfg o req user 0 req.files).2.2 with
    | none => rw [hce] at hpr; exact absurd rfl hpr.1
    | some e =>
      rw [hce] at hpr
      refine ⟨⟨e, ?_⟩, ?_⟩ <;>
        simp [handler, hp, hm, hrange, checkRatelimit, hrl, hne, hce, hpr.2]
  · intro cr hrange
    simp only [handler, hp, hm, Bool.false_eq_true, if_false, hrange,
      chunkedUpload_limits_irrel cfg o req cr user fs a b]

def fileBig : UFile :=
  { originalname := "big.png", mimetype := "image/png", size := 101, buffer := [1] }

def reqBig : Req := { reqWhole with files := [fileBig] }

/-- Witness for `size_limit_whole_only`: a 101-byte file against a
100-byte user limit is rejected with no record created, and the chunked
request runs identically with both limits set to 0. -/
theorem size_limit_whole_only_witness :
    ((∃ msg, (handler cfgFix oFix reqBig userFix 1000 []).result = .errorResp msg) ∧
      countRecord (handler cfgFix oFix reqBig userFix 1000 []).events ≤ 0) ∧
    handler { cfgFix with user_limit := 0, admin_limit := 0 } oFix reqChunk userFix 1000 [] =
      handler cfgFix oFix reqChunk userFix 1000 [] := by
  constructor
  · exact (size_limit_whole_only cfgFix oFix reqBig userFix 1000 [] 0 0 0
      (by decide) (by decide)).1 rfl rfl (by decide) (by decide)
  · exact (size_limit_whole_only cfgFix oFix reqChunk userFix 1000 [] 0 0 0
      (by decide) (by decide)).2 crNotLast rfl

/-! ## C5 - gaps are silently zero-filled -/

theorem getD_replicate_zero (n i : Nat) :
    (List.replicate n (0 : Nat)).getD i 0 = 0 := by
  rcases Nat.lt_or_ge i n with h | h
  · rw [List.getD_eq_getElem _ _ (by simpa using h)]
    simp
  · rw [List.getD_eq_default _ _ (by simpa using h)]

/-- Offsets of `[0, total)` covered by no stored chunk are left at the
`Uint8Array`'s zero initialisation. -/
theorem combineChunks_uncovered_zero (total : Nat) (cs : List Chunk) (i : Nat)
    (hi : i < total) (hnc : ∀ c ∈ cs, ¬ covers c i) :
    (combineChunks total cs).getD i 0 = 0 := by
  rw [combineChunks,
    foldl_getD_of_not_covered cs (List.replicate total 0) i (by simpa using hi) hnc]
  exact getD_replicate_zero total i

/-- When no enumerated chunk overruns the buffer, the reassembly loop
completes and its effect is exactly the `combineChunks` fold. -/
theorem combineLoop_ok_of_inRange (cs : List Chunk) :
    ∀ (buf : List Nat) (k : Nat),
      (∀ c ∈ cs, c.start + c.bytes.length ≤ buf.length) →
      combineLoop cs buf k =
        .ok (cs.foldl (fun b c => writeAt b c.start c.bytes) buf) := by
  induction cs with
  | nil => intro buf k _; rfl
  | cons c cs ih =>
    intro buf k h
    have hc := h c (by simp)
    have hnot : ¬ buf.length < c.start + c.bytes.length := by omega
    simp only [combineLoop]
    rw [if_neg hnot, List.foldl_cons]
    exact ih _ (k + 1) (fun d hd => by
      rw [length_writeAt]
      exact h d (by simp [hd]))

/-- A chunk overrunning the buffer is fatal: the reassembly loop cannot
complete, it aborts at the first offending chunk. -/
theorem combineLoop_errors_of_overrun (cs : List Chunk) :
    ∀ (buf : List Nat) (k : Nat),
      (∃ c ∈ cs, buf.length < c.start + c.bytes.length) →
      ∃ j, combineLoop cs buf k = .error j := by
  induction cs with
  | nil => intro buf k h; simp at h
  | cons c cs ih =>
    intro buf k h
    by_cases hc : buf.length < c.start + c.bytes.length
    · refine ⟨k + 1, ?_⟩
      simp only [combineLoop]
      rw [if_pos hc]
    · obtain ⟨d, hd, hover⟩ := h
      rcases List.mem_cons.mp hd with rfl | hd2
      · exact absurd hover hc
      · simp only [combineLoop]
        rw [if_neg hc]
        exact ih _ (k + 1) ⟨d, hd2, by rw [length_writeAt]; exact hover⟩

def crOverrun : ContentRange :=
  { start := 3, stop := 10, total := 5, filename := "a.png", mimetype := "image/png",
    identifier := "id1", lastchunk := true }

def reqOverrun : Req :=
  { reqWhole with
      files := [{ filePng with size := 7, buffer := [1, 2, 3, 4, 5, 6, 7] }]
      range := some crOverrun }

/-- C5 counterexample: the sole stored chunk declares `[3, 10)` with 7
bytes against a declared total of 5, leaving `[0, 3)` (e.g. offset 0)
uncovered - a reassembly squarely within the claim's scope - yet
`Uint8Array.set` throws a `RangeError`: the request dies fatally, no
File Record is created and nothing reaches the blob store, refuting "no
error is raised, and the upload completes normally". -/
theorem reassembly_overrun_cex :
    (handler cfgFix oFix reqOverrun userFix 1000 []).result = .fatal ∧
    (handler cfgFix oFix reqOverrun userFix 1000 []).events = [] ∧
    listChunks (fsWrite [] "id1" 3 10 [1, 2, 3, 4, 5, 6, 7]) "id1" =
      [⟨3, 10, [1, 2, 3, 4, 5, 6, 7]⟩] ∧
    ¬ covers ⟨3, 10, [1, 2, 3, 4, 5, 6, 7]⟩ 0 := by
  exact ⟨by decide, by decide, by decide, by decide⟩

/-- C5 (amended): for a final-chunk request (extension not disabled)
whose stored chunks all lie within the declared total, reassembly raises
no error even when sub-ranges of `[0, total)` are uncovered: the File
Record is created, the reassembled buffer is written to the blob store,
a URL is returned, and every uncovered offset of the buffer holds the
byte 0.  If instead some stored chunk's bytes extend past the declared
total, `Uint8Array.set` throws and the request aborts fatally, with no
record created and nothing saved. -/
theorem reassembly_gap_zero_fill (cfg : Config) (o : Oracles) (req : Req)
    (user : User) (now : Nat) (fs : ChunkFS) (cr : ContentRange)
    (hp : percentInvalid req.percent = false)
    (hm : maxViewsInvalid req.maxViews = false)
    (hrange : req.range = some cr)
    (hlast : cr.lastchunk = true)
    (hext : ¬ cfg.disabled_extensions.contains (fileExt cr.filename) = true) :
    ((∀ c ∈ listChunks (fsWrite fs cr.identifier cr.start cr.stop (chunkBody req))
        cr.identifier, c.start + c.bytes.length ≤ cr.total) →
      (handler cfg o req user now fs).result =
        .filesJson [hostUrl cfg req.host ++ routePart cfg ++ "/" ++
          (if req.zws then o.invisChars 0 else (chunkImage cfg o req cr user).file)] none ∧
      (handler cfg o req user now fs).events =
        [Event.createRecord (chunkImage cfg o req cr user)] ++
          (if req.zws then [Event.createInvis (o.invisChars 0)] else []) ++
          [Event.saveBlob (chunkImage cfg o req cr user).file
            (combineChunks cr.total
              (listChunks (fsWrite fs cr.identifier cr.start cr.stop (chunkBody req))
                cr.identifier))] ∧
      (∀ i, i < cr.total →
        (∀ c ∈ listChunks (fsWrite fs cr.identifier cr.start cr.stop (chunkBody req))
            cr.identifier, ¬ covers c i) →
        (combineChunks cr.total
          (listChunks (fsWrite fs cr.identifier cr.start cr.stop (chunkBody req))
            cr.identifier)).getD i 0 = 0)) ∧
    ((∃ c ∈ listChunks (fsWrite fs cr.identifier cr.start cr.stop (chunkBody req))
        cr.identifier, cr.total < c.start + c.bytes.length) →
      (handler cfg o req user now fs).result = .fatal ∧
      (handler cfg o req user now fs).events = []) := by
  have hext2 : fileExt cr.filename ∉ cfg.disabled_extensions := by simpa using hext
  constructor
  · intro hin
    have hcl : combineLoop
        (listChunks (fsWrite fs cr.identifier cr.start cr.stop (chunkBody req)) cr.identifier)
        (List.replicate cr.total 0) 0 =
        .ok (combineChunks cr.total
          (listChunks (fsWrite fs cr.identifier cr.start cr.stop (chunkBody req))
            cr.identifier)) :=
      combineLoop_ok_of_inRange _ _ 0 (by simpa using hin)
    refine ⟨?_, ?_, ?_⟩
    · simp [handler, hp, hm, hrange, chunkedUpload, hlast, hcl, hext2]
    · simp [handler, hp, hm, hrange, chunkedUpload, hlast, hcl, hext2]
    · intro i hi hnc
      exact combineChunks_uncovered_zero cr.total _ i hi hnc
  · intro hover
    obtain ⟨j, hj⟩ := combineLoop_errors_of_overrun
      (listChunks (fsWrite fs cr.identifier cr.start cr.stop (chunkBody req)) cr.identifier)
      (List.replicate cr.total 0) 0 (by simpa using hover)
    constructor
    · simp [handler, hp, hm, hrange, chunkedUpload, hlast, hj]
    · simp [handler, hp, hm, hrange, chunkedUpload, hlast, hj]

/-- Witness for `reassembly_gap_zero_fill`: chunks `[0,2)` and `[4,6)` of
a declared 6-byte total (all within the total) leave `[2,4)` uncovered;
the upload completes and offset 2 of the written buffer is 0. -/
theorem reassembly_gap_zero_fill_witness :
    (handler cfgFix oFix reqChunkLast userFix 1000 [⟨"id1", 0, 2, [5, 6]⟩]).result =
      .filesJson ["https://h/u/rrrrrr.png"] none ∧
    (combineChunks 6
      (listChunks (fsWrite [⟨"id1", 0, 2, [5, 6]⟩] "id1" 4 6 [7, 8]) "id1")).getD 2 0 = 0 := by
  have h := (reassembly_gap_zero_fill cfgFix oFix reqChunkLast userFix 1000
    [⟨"id1", 0, 2, [5, 6]⟩] crLast (by decide) (by decide) rfl rfl (by decide)).1 (by decide)
  constructor
  · rw [h.1]; decide
  · exact h.2.2 2 (by decide) (by decide)
